import Mathlib

/-!
Verification of the Onion-Email onboarding provisioning service.

Shallow embedding of the core logic of the repository:
* the identity allocator (`src/services/email.js`): suffix sequence,
  unique-email generation, local batch allocation, candidate lists and the
  retry-based provisioning loop;
* the rule matcher (`src/services/matcher.js`);
* the bot orchestrator (`src/services/bot.js`): push-cadence policy,
  change detection over polled rosters, per-city notification gating,
  batch provisioning and the bounded audit log.

External collaborators (the Feishu HTTP client, the pinyin library, the
Didi client, wall-clock time) are modelled as function parameters or as
explicit inputs (e.g. the current weekday in the Asia/Shanghai zone is an
input `chinaDay`).
-/

namespace OnionEmail

/-- Constant `EMAIL_DOMAIN` from email.js. -/
def EMAIL_DOMAIN : String := "@guanghe.tv"

/-- Constant `VALID_DIGITS` from email.js: digits avoiding 2 and 4. -/
def VALID_DIGITS : List Nat := [1, 3, 5, 6, 7, 8, 9]

/-- Function `generateValidSuffixes()` from email.js: one-digit values, then all
two-digit values whose tens and ones digits are both valid. -/
def generateValidSuffixes : List Nat :=
  VALID_DIGITS ++ (VALID_DIGITS.map (fun tens => VALID_DIGITS.map (fun ones => tens * 10 + ones))).flatten

/-- Constant `VALID_SUFFIXES` from email.js. -/
def VALID_SUFFIXES : List Nat := generateValidSuffixes

/-- A suffixed candidate email: `${basePinyin}${suffix}${EMAIL_DOMAIN}`. -/
def suffixEmail (base : String) (s : Nat) : String := base ++ toString s ++ EMAIL_DOMAIN

/-- Result of `EmailService.generateUniqueEmail`: `null` when the name has no
pinyin, a found email (with `hadDuplicate` and the used suffix) or the
"all valid suffixes exhausted" exception. -/
inductive GenResult
  | noPinyin
  | found (email : String) (hadDuplicate : Bool) (suffix : Option Nat)
  | exhausted
deriving DecidableEq, Repr

/-- The suffix loop of `generateUniqueEmail`: try `base + suffix + domain` for
each suffix in order, returning the first candidate that is not taken. -/
def suffixScan (isTaken : String → Bool) (base : String) : List Nat → GenResult
  | [] => .exhausted
  | s :: rest =>
    if isTaken (suffixEmail base s) then suffixScan isTaken base rest
    else .found (suffixEmail base s) true (some s)

/-- Method `EmailService.generateUniqueEmail` from email.js.  The external
`feishuService.checkEmailExists` probe is the parameter `isTaken`; the pinyin
conversion (external library) has already produced `basePinyin`. -/
def generateUniqueEmail (isTaken : String → Bool) (basePinyin : String) : GenResult :=
  if basePinyin = "" then .noPinyin
  else if isTaken (basePinyin ++ EMAIL_DOMAIN) then suffixScan isTaken basePinyin VALID_SUFFIXES
  else .found (basePinyin ++ EMAIL_DOMAIN) false none

/-- The ordered candidate list evaluated by the allocator: the base slug
followed by each suffixed candidate in suffix order. -/
def candidateList (base : String) : List String :=
  (base ++ EMAIL_DOMAIN) :: VALID_SUFFIXES.map (suffixEmail base)

/-- The email carried by a `GenResult`, if any. -/
def emailOf : GenResult → Option String
  | .found e _ _ => some e
  | _ => none

/-- C7: the fixed suffix sequence has no decimal digit 2 or 4 in any position
(every element is below 100, so the ones and tens digits are the only ones),
is strictly increasing, and starts with the seven single digits 1,3,5,6,7,8,9. -/
theorem validSuffixes_spec :
    (∀ s ∈ VALID_SUFFIXES,
      s < 100 ∧ s % 10 ≠ 2 ∧ s % 10 ≠ 4 ∧ s / 10 ≠ 2 ∧ s / 10 ≠ 4)
  ∧ List.Pairwise (· < ·) VALID_SUFFIXES
  ∧ VALID_SUFFIXES.take 7 = [1, 3, 5, 6, 7, 8, 9] := by
  refine ⟨by decide, by decide, by decide⟩

/-- The suffix loop of `generateUniqueEmail` returns the first suffixed
candidate that is not taken, and the exhausted signal when all are taken. -/
theorem suffixScan_eq_find? (isTaken : String → Bool) (base : String) (l : List Nat) :
    suffixScan isTaken base l =
      match l.find? (fun s => !(isTaken (suffixEmail base s))) with
      | some s => GenResult.found (suffixEmail base s) true (some s)
      | none => GenResult.exhausted := by
  induction l with
  | nil => rfl
  | cons s rest ih =>
    cases h : isTaken (suffixEmail base s) with
    | true => simp [suffixScan, h, List.find?_cons, ih]
    | false => simp [suffixScan, h, List.find?_cons]

/-- Fact: `find?` only depends on the predicate's values on the list's elements. -/
theorem find?_congr_mem {α : Type} {p q : α → Bool} :
    ∀ l : List α, (∀ x ∈ l, p x = q x) → l.find? p = l.find? q := by
  intro l
  induction l with
  | nil => intro _; rfl
  | cons a t ih =>
    intro h
    rw [List.find?_cons, List.find?_cons, h a (List.mem_cons_self a t),
      ih (fun x hx => h x (List.mem_cons_of_mem a hx))]

/-- In a duplicate-free list, the first element that is not among the first
`n` elements is the element at index `n`. -/
theorem find?_not_contains_take {α : Type} [BEq α] [LawfulBEq α] :
    ∀ (n : Nat) (l : List α) (_ : l.Nodup) (hn : n < l.length),
      l.find? (fun c => !((l.take n).contains c)) = some (l.get ⟨n, hn⟩) := by
  intro n
  induction n with
  | zero =>
    intro l hnd hn
    cases l with
    | nil => simp at hn
    | cons a t => simp
  | succ m ih =>
    intro l hnd hn
    cases l with
    | nil => simp at hn
    | cons a t =>
      have hat : a ∉ t := (List.nodup_cons.mp hnd).1
      have htn : t.Nodup := (List.nodup_cons.mp hnd).2
      have hm : m < t.length := by simpa using hn
      have hpa : (!(((a :: t).take (m+1)).contains a)) = false := by
        simp [List.take_succ_cons]
      rw [List.find?_cons, hpa]
      have hcongr : ∀ x ∈ t,
          (fun c => !(((a :: t).take (m+1)).contains c)) x
            = (fun c => !((t.take m).contains c)) x := by
        intro x hx
        have hxa : x ≠ a := fun he => hat (he ▸ hx)
        simp [List.take_succ_cons, hxa]
      rw [find?_congr_mem t hcongr, ih t htn hm]
      simp

/-- Two strings with the same character data are equal. -/
theorem string_data_inj {a b : String} (h : a.data = b.data) : a = b := by
  cases a; cases b; exact congrArg String.mk h

/-- Wrapping a string between a fixed prefix and a fixed suffix is injective. -/
theorem appendWrap_injective (base post : String) :
    Function.Injective (fun t : String => base ++ t ++ post) := by
  intro a b h
  have h1 := congrArg String.data h
  simp only [String.data_append, List.append_assoc] at h1
  have h3 := List.append_cancel_left h1
  have h4 := List.append_cancel_right h3
  exact string_data_inj h4

/-- The decimal renderings of the 56 suffixes are pairwise distinct. -/
theorem validSuffixes_toString_nodup :
    (VALID_SUFFIXES.map (fun s => toString s)).Nodup := by decide

/-- No suffix renders to the empty string. -/
theorem validSuffixes_toString_ne_empty : ∀ s ∈ VALID_SUFFIXES, toString s ≠ "" := by decide

/-- The allocator's candidate list never repeats a candidate. -/
theorem candidateList_nodup (base : String) : (candidateList base).Nodup := by
  have hg := appendWrap_injective base EMAIL_DOMAIN
  have hmapeq : VALID_SUFFIXES.map (suffixEmail base)
      = (VALID_SUFFIXES.map (fun s => toString s)).map (fun t => base ++ t ++ EMAIL_DOMAIN) := by
    rw [List.map_map]
    rfl
  have hmap : (VALID_SUFFIXES.map (suffixEmail base)).Nodup := by
    rw [hmapeq]
    exact validSuffixes_toString_nodup.map hg
  refine List.nodup_cons.mpr ⟨?_, hmap⟩
  intro hmem
  obtain ⟨s, hs, heq⟩ := List.mem_map.mp hmem
  have h1 := congrArg String.data heq
  simp only [suffixEmail, String.data_append, List.append_assoc] at h1
  have h2 := List.append_cancel_left h1
  have h3 : (toString s).data ++ EMAIL_DOMAIN.data = [] ++ EMAIL_DOMAIN.data := by
    simpa using h2
  have h4 := List.append_cancel_right h3
  exact validSuffixes_toString_ne_empty s hs (string_data_inj h4)

/-- On the suffix sequence, building a candidate from a suffix is injective. -/
theorem suffixEmail_injOn (base : String) :
    ∀ x ∈ VALID_SUFFIXES, ∀ y ∈ VALID_SUFFIXES,
      suffixEmail base x = suffixEmail base y → x = y := by
  intro x hx y hy h
  have hts : toString x = toString y := appendWrap_injective base EMAIL_DOMAIN h
  exact List.inj_on_of_nodup_map validSuffixes_toString_nodup hx hy hts

/-- The allocator returns (as its email) exactly the first candidate of the
ordered candidate list for which the is-taken probe is false. -/
theorem generateUniqueEmail_email_eq (isTaken : String → Bool) (base : String) (hb : base ≠ "") :
    emailOf (generateUniqueEmail isTaken base)
      = (candidateList base).find? (fun c => !(isTaken c)) := by
  unfold generateUniqueEmail candidateList
  rw [if_neg hb]
  cases h : isTaken (base ++ EMAIL_DOMAIN) with
  | true =>
    rw [if_pos (by simp [h]), suffixScan_eq_find?,
      List.find?_cons_of_neg _ (by simp [h]), List.find?_map]
    simp only [Function.comp_def]
    cases hf : VALID_SUFFIXES.find? (fun s => !(isTaken (suffixEmail base s))) with
    | none => rfl
    | some s => rfl
  | false =>
    rw [if_neg (by simp [h]), List.find?_cons_of_pos _ (by simp [h])]
    rfl

/-- If every candidate is taken, the allocator signals exhaustion. -/
theorem generateUniqueEmail_exhausted (isTaken : String → Bool) (base : String) (hb : base ≠ "")
    (hall : ∀ c ∈ candidateList base, isTaken c = true) :
    generateUniqueEmail isTaken base = .exhausted := by
  have hbase : isTaken (base ++ EMAIL_DOMAIN) = true :=
    hall _ (List.mem_cons_self _ _)
  unfold generateUniqueEmail
  rw [if_neg hb, if_pos (by simp [hbase]), suffixScan_eq_find?]
  have hnone : VALID_SUFFIXES.find? (fun s => !(isTaken (suffixEmail base s))) = none := by
    rw [List.find?_eq_none]
    intro s hs
    simp [hall _ (List.mem_cons_of_mem _ (List.mem_map_of_mem _ hs))]
  rw [hnone]

/-- If precisely the first `n+1` candidates (the base and the first `n`
suffixed candidates) are taken, the allocator lands on the `(n+1)`-st suffix. -/
theorem generateUniqueEmail_take (base : String) (hb : base ≠ "")
    (n : Nat) (hn : n < VALID_SUFFIXES.length) :
    generateUniqueEmail (fun c => ((candidateList base).take (n+1)).contains c) base
      = .found (suffixEmail base (VALID_SUFFIXES.get ⟨n, hn⟩)) true
          (some (VALID_SUFFIXES.get ⟨n, hn⟩)) := by
  have hlen : n + 1 < (candidateList base).length := by
    simp only [candidateList, List.length_cons, List.length_map]
    omega
  have hfind := find?_not_contains_take (n+1) (candidateList base) (candidateList_nodup base) hlen
  have hget : (candidateList base).get ⟨n+1, hlen⟩
      = suffixEmail base (VALID_SUFFIXES.get ⟨n, hn⟩) := by
    simp [candidateList, List.get_eq_getElem]
  have hmem : base ++ EMAIL_DOMAIN ∈ (candidateList base).take (n+1) := by
    simp [candidateList, List.take_succ_cons]
  have hhead : ((candidateList base).take (n+1)).contains (base ++ EMAIL_DOMAIN) = true := by
    simp [candidateList, List.take_succ_cons]
  rw [hget] at hfind
  have hstep : (candidateList base).find?
        (fun c => !(((candidateList base).take (n+1)).contains c))
      = (VALID_SUFFIXES.map (suffixEmail base)).find?
        (fun c => !(((candidateList base).take (n+1)).contains c)) :=
    List.find?_cons_of_neg _ (by simp [hmem])
  rw [hstep, List.find?_map] at hfind
  obtain ⟨s₀, hs₀, heq⟩ := Option.map_eq_some'.mp hfind
  have hs₀mem : s₀ ∈ VALID_SUFFIXES := List.mem_of_find?_eq_some hs₀
  have hgetmem : VALID_SUFFIXES.get ⟨n, hn⟩ ∈ VALID_SUFFIXES := VALID_SUFFIXES.get_mem n hn
  have hs₀eq : s₀ = VALID_SUFFIXES.get ⟨n, hn⟩ :=
    suffixEmail_injOn base s₀ hs₀mem _ hgetmem heq
  rw [hs₀eq] at hs₀
  unfold generateUniqueEmail
  rw [if_neg hb, if_pos (by simpa using hhead), suffixScan_eq_find?,
    show VALID_SUFFIXES.find?
        (fun s => !((fun c => (((candidateList base).take (n+1)).contains c)) (suffixEmail base s)))
      = some (VALID_SUFFIXES.get ⟨n, hn⟩) from hs₀]

/-- C5: for every name with a non-empty slug and every is-taken predicate,
`generateUniqueEmail` returns (as its email) the first candidate of the
ordered candidate list — base slug, then base+suffix in suffix order — for
which the predicate is false; when exactly the base and the first `n`
suffixed candidates are taken it returns the candidate with the `(n+1)`-th
suffix; when every candidate is taken it signals exhaustion instead of
returning a candidate. -/
theorem generateUniqueEmail_spec (isTaken : String → Bool) (base : String) (hb : base ≠ "") :
    (emailOf (generateUniqueEmail isTaken base)
        = (candidateList base).find? (fun c => !(isTaken c)))
  ∧ (∀ (n : Nat) (hn : n < VALID_SUFFIXES.length),
      generateUniqueEmail (fun c => ((candidateList base).take (n+1)).contains c) base
        = .found (suffixEmail base (VALID_SUFFIXES.get ⟨n, hn⟩)) true
            (some (VALID_SUFFIXES.get ⟨n, hn⟩)))
  ∧ ((∀ c ∈ candidateList base, isTaken c = true) →
      generateUniqueEmail isTaken base = .exhausted) :=
  ⟨generateUniqueEmail_email_eq isTaken base hb,
   fun n hn => generateUniqueEmail_take base hb n hn,
   fun hall => generateUniqueEmail_exhausted isTaken base hb hall⟩

/-- Witness for C5 at the concrete slug "li" with a free base email: the
returned email is the first untaken candidate. -/
theorem generateUniqueEmail_spec_witness :
    emailOf (generateUniqueEmail (fun _ => false) "li")
      = (candidateList "li").find? (fun c => !((fun _ : String => false) c)) :=
  (generateUniqueEmail_spec (fun _ => false) "li" (by decide)).1

/-- The per-record assignment step of `EmailService.batchGenerateEmailsLocal`
(email.js): try the bare base email first; if it was already assigned within
this batch (`usedEmails`), advance through the suffix sequence to the first
candidate not yet assigned (if none is found the email stays the base one
and the suffix stays null, as in the source's fall-through). -/
def assignLocalEmail (base : String) (used : List String) : String × Option Nat :=
  let baseEmail := base ++ EMAIL_DOMAIN
  if used.contains baseEmail then
    match VALID_SUFFIXES.find? (fun s => !(used.contains (suffixEmail base s))) with
    | some s => (suffixEmail base s, some s)
    | none => (baseEmail, none)
  else (baseEmail, none)

/-- The sequential fold of `batchGenerateEmailsLocal`: the pinyin conversion
(external library) is the parameter `pin`; a record with an empty pinyin gets
a null suggestion and does not touch the used set; otherwise the assigned
email is recorded in the used set. Each output pair is the record's
`(suggested_email, email_suffix)`. -/
def batchLocalGo (pin : String → String) :
    List String → List String → List (Option String × Option Nat)
  | [], _ => []
  | name :: rest, used =>
    let base := pin name
    if base = "" then (none, none) :: batchLocalGo pin rest used
    else
      let r := assignLocalEmail base used
      (some r.1, r.2) :: batchLocalGo pin rest (used ++ [r.1])

/-- Method `EmailService.batchGenerateEmailsLocal` (email.js): local, no live
checks, starting from an empty used set. -/
def batchGenerateEmailsLocal (pin : String → String) (names : List String) :
    List (Option String × Option Nat) :=
  batchLocalGo pin names []

/-- A suffixed candidate never coincides with the bare base candidate. -/
theorem suffixEmail_ne_base (base : String) {s : Nat} (hs : s ∈ VALID_SUFFIXES) :
    suffixEmail base s ≠ base ++ EMAIL_DOMAIN := by
  have hnd := candidateList_nodup base
  have hnotmem := (List.nodup_cons.mp hnd).1
  intro he
  exact hnotmem (he ▸ List.mem_map_of_mem (suffixEmail base) hs)

/-- C6: in batch-local allocation, when a record's first-choice candidate
(the bare base email) was already assigned within the same call, the record
is advanced to the first still-free candidate of the suffix sequence; in
particular two records with the same non-empty base and no external
conflicts get two distinct candidates, the second being base + the first
suffix (1). -/
theorem batchGenerateEmailsLocal_spec (pin : String → String) (n1 n2 b : String)
    (h1 : pin n1 = b) (h2 : pin n2 = b) (hb : b ≠ "") :
    (∀ (base : String) (used : List String) (s₀ : Nat),
        used.contains (base ++ EMAIL_DOMAIN) = true →
        VALID_SUFFIXES.find? (fun s => !(used.contains (suffixEmail base s))) = some s₀ →
        assignLocalEmail base used = (suffixEmail base s₀, some s₀))
  ∧ batchGenerateEmailsLocal pin [n1, n2]
      = [(some (b ++ EMAIL_DOMAIN), none), (some (suffixEmail b 1), some 1)]
  ∧ b ++ EMAIL_DOMAIN ≠ suffixEmail b 1 := by
  have h1mem : (1 : Nat) ∈ VALID_SUFFIXES := by decide
  have hne : suffixEmail b 1 ≠ b ++ EMAIL_DOMAIN := suffixEmail_ne_base b h1mem
  refine ⟨?_, ?_, Ne.symm hne⟩
  · intro base used s₀ hc hf
    simp only [assignLocalEmail]
    rw [if_pos hc, hf]
  · have hassign1 : assignLocalEmail b [] = (b ++ EMAIL_DOMAIN, none) := by
      simp [assignLocalEmail]
    have hfind : VALID_SUFFIXES.find?
        (fun s => !(([b ++ EMAIL_DOMAIN] : List String).contains (suffixEmail b s)))
        = some 1 := by
      rw [show VALID_SUFFIXES = 1 :: VALID_SUFFIXES.tail from rfl]
      exact List.find?_cons_of_pos _ (by simp [hne])
    have hassign2 : assignLocalEmail b [b ++ EMAIL_DOMAIN] = (suffixEmail b 1, some 1) := by
      simp only [assignLocalEmail]
      rw [if_pos (by simp), hfind]
    simp [batchGenerateEmailsLocal, batchLocalGo, h1, h2, hb, hassign1, hassign2]

/-- Witness for C6 at a concrete batch: two records both with base "li". -/
theorem batchGenerateEmailsLocal_spec_witness :
    batchGenerateEmailsLocal (fun _ => "li") ["x", "y"]
      = [(some ("li" ++ EMAIL_DOMAIN), none), (some (suffixEmail "li" 1), some 1)] :=
  (batchGenerateEmailsLocal_spec (fun _ => "li") "x" "y" "li" rfl rfl (by decide)).2.1

/-- The suffix loop of `_buildCandidateList` (email.js): append each suffixed
candidate unless it is already in the list. -/
def dedupFold : List String → List String → List String
  | acc, [] => acc
  | acc, e :: t => if acc.contains e then dedupFold acc t else dedupFold (acc ++ [e]) t

/-- Method `EmailService._buildCandidateList` (email.js): a supplied preferred email
(non-empty because `preferredEmail` must be truthy) that differs from the
base email goes first, then the base email, then every suffixed candidate
with duplicates skipped. -/
def buildCandidateList (basePinyin : String) (preferredEmail : Option String) : List String :=
  let baseEmail := basePinyin ++ EMAIL_DOMAIN
  let start := match preferredEmail with
    | some p => if p ≠ "" ∧ p ≠ baseEmail then [p, baseEmail] else [baseEmail]
    | none => [baseEmail]
  dedupFold start (VALID_SUFFIXES.map (suffixEmail basePinyin))

/-- Outcome of the external `feishuService.updateWorkEmail` commit:
success, duplicate conflict (soft-deleted account), or another error. -/
inductive CommitRes
  | ok
  | dup
  | err (msg : String)
deriving DecidableEq, Repr

/-- Phase 1 of `provisionEmailWithRetry`: the index of the first candidate
the directory probe reports free; `none` when every candidate is taken
(which the source surfaces as a thrown error). -/
def findFreeIdx (emailTaken : String → Bool) : List String → Option Nat
  | [] => none
  | c :: rest => if emailTaken c then (findFreeIdx emailTaken rest).map (· + 1) else some 0

/-- Phase 2 of `provisionEmailWithRetry`: attempt the commit on each
remaining candidate; a duplicate conflict advances to the next candidate,
any other error aborts, and running out of candidates throws. -/
def commitScan (commit : String → CommitRes) : List String → Nat → Except String (String × Nat)
  | [], _ => .error "all candidates exhausted"
  | c :: rest, attempt =>
    match commit c with
    | .ok => .ok (c, attempt)
    | .dup => commitScan commit rest (attempt + 1)
    | .err m => .error m

/-- Method `EmailService.provisionEmailWithRetry` (email.js): empty pinyin throws;
otherwise probe the candidate list for the first free candidate, then commit
from there with duplicate-driven retries. Success returns the email and the
number of commit attempts. -/
def provisionEmailWithRetry (emailTaken : String → Bool) (commit : String → CommitRes)
    (basePinyin : String) (preferredEmail : Option String) : Except String (String × Nat) :=
  if basePinyin = "" then .error "cannot generate pinyin"
  else
    let candidates := buildCandidateList basePinyin preferredEmail
    match findFreeIdx emailTaken candidates with
    | none => .error "all candidates taken by active employees"
    | some startIndex => commitScan commit (candidates.drop startIndex) 1

/-- The dedup fold only ever appends to its accumulator. -/
theorem dedupFold_append (l : List String) :
    ∀ acc, ∃ t, dedupFold acc l = acc ++ t := by
  induction l with
  | nil => intro acc; exact ⟨[], by simp [dedupFold]⟩
  | cons e t ih =>
    intro acc
    by_cases h : e ∈ acc
    · obtain ⟨u, hu⟩ := ih acc
      exact ⟨u, by simp [dedupFold, h, hu]⟩
    · obtain ⟨u, hu⟩ := ih (acc ++ [e])
      exact ⟨[e] ++ u, by simp [dedupFold, h, hu]⟩

/-- The dedup fold never duplicates an element that the accumulator
already holds. -/
theorem dedupFold_count_of_mem (x : String) (l : List String) :
    ∀ acc, x ∈ acc → (dedupFold acc l).count x = acc.count x := by
  induction l with
  | nil => intro acc _; simp [dedupFold]
  | cons e t ih =>
    intro acc hx
    by_cases h : e ∈ acc
    · rw [show dedupFold acc (e :: t) = dedupFold acc t by simp [dedupFold, h]]
      exact ih acc hx
    · have hneq : e ≠ x := fun he => h (he ▸ hx)
      rw [show dedupFold acc (e :: t) = dedupFold (acc ++ [e]) t by simp [dedupFold, h]]
      rw [ih (acc ++ [e]) (List.mem_append_left _ hx)]
      have hz : List.count x [e] = 0 := by simp [List.count_eq_zero, Ne.symm hneq]
      simp [List.count_append, hz]

/-- C10: `provisionEmailWithRetry` accepts an operator-supplied preferred
email; when it is supplied (non-empty) and differs from the base pinyin
email it is the head of the candidate list — probed and committed before
the base and before every suffixed candidate — and appears in the list
exactly once; without a preferred email the base email is the head. When
the preferred email is free and the commit accepts it, provisioning
returns it on the first attempt. -/
theorem buildCandidateList_preferred (base p : String) (hb : base ≠ "") (hp : p ≠ "")
    (hpb : p ≠ base ++ EMAIL_DOMAIN) :
    ((buildCandidateList base (some p)).head? = some p)
  ∧ ((buildCandidateList base (some p)).count p = 1)
  ∧ ((buildCandidateList base none).head? = some (base ++ EMAIL_DOMAIN))
  ∧ (∀ (emailTaken : String → Bool) (commit : String → CommitRes),
      emailTaken p = false → commit p = .ok →
      provisionEmailWithRetry emailTaken commit base (some p) = .ok (p, 1)) := by
  have hstart : buildCandidateList base (some p)
      = dedupFold [p, base ++ EMAIL_DOMAIN] (VALID_SUFFIXES.map (suffixEmail base)) := by
    simp [buildCandidateList, hp, hpb]
  obtain ⟨t, ht⟩ := dedupFold_append (VALID_SUFFIXES.map (suffixEmail base))
    [p, base ++ EMAIL_DOMAIN]
  have hlist : buildCandidateList base (some p) = p :: (base ++ EMAIL_DOMAIN) :: t := by
    rw [hstart, ht]; rfl
  refine ⟨?_, ?_, ?_, ?_⟩
  · rw [hlist]; rfl
  · rw [hstart, dedupFold_count_of_mem p _ _ (by simp)]
    have hbp : base ++ EMAIL_DOMAIN ≠ p := Ne.symm hpb
    simp [List.count_cons, hbp]
  · have hstart0 : buildCandidateList base none
        = dedupFold [base ++ EMAIL_DOMAIN] (VALID_SUFFIXES.map (suffixEmail base)) := by
      simp [buildCandidateList]
    obtain ⟨u, hu⟩ := dedupFold_append (VALID_SUFFIXES.map (suffixEmail base))
      [base ++ EMAIL_DOMAIN]
    rw [hstart0, hu]; rfl
  · intro emailTaken commit hfree hok
    unfold provisionEmailWithRetry
    rw [if_neg hb]
    simp only [hlist, findFreeIdx, hfree]
    simp [commitScan, hok]

/-- Witness for C10 at concrete inputs: preferred email "lee@guanghe.tv"
with base "li" heads the candidate list. -/
theorem buildCandidateList_preferred_witness :
    (buildCandidateList "li" (some "lee@guanghe.tv")).head? = some "lee@guanghe.tv" :=
  (buildCandidateList_preferred "li" "lee@guanghe.tv" (by decide) (by decide) (by decide)).1

/-- A push-cadence rule from bot.js: `realtime` (push whenever the group has
new records) or `scheduled` on a fixed list of weekdays. -/
inductive PushRule
  | realtime
  | scheduled (days : List Nat)
deriving DecidableEq, Repr

/-- Table `CITY_PUSH_RULES` with `DEFAULT_PUSH_RULE` fallback (bot.js): 北京 is
scheduled on weekdays 1 and 3, 武汉 is realtime, any other city uses the
default (same as 北京). -/
def cityPushRule (city : String) : PushRule :=
  if city = "北京" then .scheduled [1, 3]
  else if city = "武汉" then .realtime
  else .scheduled [1, 3]

/-- Method `BotService._shouldPushForCity` (bot.js). The current weekday in the
Asia/Shanghai time zone (`new Date(...).getDay()`) is the input `chinaDay`.
(The source's final `return hasNewHires` fallback is unreachable because
every rule has one of the two types.) -/
def shouldPushForCity (city : String) (hasNewHires : Bool) (chinaDay : Nat) : Bool :=
  match cityPushRule city with
  | .realtime => hasNewHires
  | .scheduled days => days.contains chinaDay

/-- The cadence gate inside the per-city loop of `_processPreboardingHires`:
a city is skipped iff `!shouldPushForCity(...) && !force`. -/
def gateSkips (city : String) (hasNew : Bool) (chinaDay : Nat) (force : Bool) : Bool :=
  !(shouldPushForCity city hasNew chinaDay) && !force

/-- A roster record as the orchestrator sees it: stable identifier and city. -/
structure Hire where
  id : String
  city : String
deriving DecidableEq, Repr

/-- The orchestrator's change-detection state for one roster category:
`lastKnownIds` and the `initialized` flag (bot.js constructor). -/
structure BotState where
  lastKnownIds : List String
  initialized : Bool
deriving DecidableEq, Repr

/-- The change-detection prefix of `_processPreboardingHires` (bot.js lines
210–221): pick the "new" records — all of them under force or when not yet
initialized, otherwise those whose id is absent from `lastKnownIds` — then
unconditionally replace `lastKnownIds` with the current id set and set
`initialized`. -/
def classifyHires (st : BotState) (hires : List Hire) (force : Bool) :
    List Hire × BotState :=
  let newHires :=
    if force then hires
    else if st.initialized then hires.filter (fun h => !(st.lastKnownIds.contains h.id))
    else hires
  (newHires, ⟨hires.map (fun h => h.id), true⟩)

/-- Expression `h.city || 'Unknown'` from the grouping step. -/
def cityOf (h : Hire) : String := if h.city = "" then "Unknown" else h.city

/-- The `byCity` grouping of `_processPreboardingHires`: cities in order of
first appearance, each with its records. -/
def groupByCity (hs : List Hire) : List (String × List Hire) :=
  ((hs.map cityOf).eraseDups).map (fun c => (c, hs.filter (fun h => cityOf h == c)))

/-- Method `BotService._processPreboardingHires` (bot.js): classify new hires and
replace the known-id state, return early when nothing is new and not
forced, group the records to notify by city, and send a card for each city
group that the cadence gate does not skip. Crucially, `hasNewInCity` is
computed against the **already replaced** `lastKnownIds`. The returned pair
is the new state and the list of (city, records) cards sent. -/
def processPreboardingHires (st : BotState) (preHires : List Hire) (force : Bool)
    (chinaDay : Nat) : BotState × List (String × List Hire) :=
  let (newHires, st') := classifyHires st preHires force
  if newHires.isEmpty && !force then (st', [])
  else
    let withEmails := if force then preHires else newHires
    let byCity := groupByCity withEmails
    let sent := byCity.filter (fun g =>
      let hasNewInCity := (g.2.any (fun h => !(st'.lastKnownIds.contains h.id))) || force
      !(gateSkips g.1 hasNewInCity chinaDay force))
    (st', sent)

/-- C8: the cadence decision. For the scheduled rule with day list `[1, 3]`
(city 北京) it is true exactly on weekdays 1 and 3 regardless of `hasNew`;
for the realtime rule (city 武汉) it is true iff `hasNew`; and the operator
force flag always bypasses the gate. -/
theorem shouldPushForCity_spec :
    (∀ (hasNew : Bool) (day : Nat),
      (shouldPushForCity "北京" hasNew day = true ↔ (day = 1 ∨ day = 3)))
  ∧ (∀ (hasNew : Bool) (day : Nat), shouldPushForCity "武汉" hasNew day = hasNew)
  ∧ (∀ (city : String) (hasNew : Bool) (day : Nat), gateSkips city hasNew day true = false) := by
  refine ⟨?_, ?_, ?_⟩
  · intro hasNew day
    simp [shouldPushForCity, cityPushRule]
  · intro hasNew day
    rfl
  · intro city hasNew day
    simp [gateSkips]

/-- C4 counterexample: on the very first classification call (uninitialized
state) with current ids {A, B} and no force, the code reports **all** current
ids as new — not zero as the claim states. -/
theorem classifyHires_first_call_counterexample :
    ((classifyHires ⟨[], false⟩ [⟨"A", ""⟩, ⟨"B", ""⟩] false).1.map (fun h => h.id)
        = ["A", "B"])
  ∧ (["A", "B"] : List String) ≠ [] := by
  refine ⟨rfl, by decide⟩

/-- C4 (amended): on the first (uninitialized) call every current id is
reported as new and `initialized` becomes true; on every later call the new
ids are exactly those present now but absent from the previous known set;
after every call the known set is unconditionally replaced by the current
ids, so the example chain {A,B}, {A,B,C}, {A,C}, {A,B,C} reports
{A,B}, {C}, {}, {B} — an id that disappears and reappears is new again. -/
theorem classifyHires_amended :
    (∀ (known : List String) (hs : List Hire),
      (classifyHires ⟨known, false⟩ hs false).1 = hs)
  ∧ (∀ (known : List String) (hs : List Hire),
      (classifyHires ⟨known, true⟩ hs false).1
        = hs.filter (fun h => !(known.contains h.id)))
  ∧ (∀ (st : BotState) (hs : List Hire) (force : Bool),
      (classifyHires st hs force).2 = ⟨hs.map (fun h => h.id), true⟩)
  ∧ (let hA : Hire := ⟨"A", ""⟩
     let hB : Hire := ⟨"B", ""⟩
     let hC : Hire := ⟨"C", ""⟩
     let r1 := classifyHires ⟨[], false⟩ [hA, hB] false
     let r2 := classifyHires r1.2 [hA, hB, hC] false
     let r3 := classifyHires r2.2 [hA, hC] false
     let r4 := classifyHires r3.2 [hA, hB, hC] false
     r1.1 = [hA, hB] ∧ r2.1 = [hC] ∧ r3.1 = [] ∧ r4.1 = [hB]) := by
  refine ⟨?_, ?_, ?_, ?_⟩
  · intro known hs; rfl
  · intro known hs
    rfl
  · intro st hs force
    cases force <;> rfl
  · refine ⟨rfl, rfl, rfl, rfl⟩

/-- C1: evaluation of `_processPreboardingHires` at a failing input. The
realtime city 武汉 has a genuinely new record B (absent from the previous
known set {A}), yet in a non-forced cycle no card is sent for any group:
`lastKnownIds` is replaced with the current ids before `hasNewInCity` is
computed, so `hasNewInCity` is false and the realtime rule gates the city
out, for every weekday. -/
theorem processPreboarding_realtime_new_skipped :
    ∀ chinaDay : Nat,
      processPreboardingHires ⟨["A"], true⟩ [⟨"A", "武汉"⟩, ⟨"B", "武汉"⟩] false chinaDay
        = (⟨["A", "B"], true⟩, []) := by
  intro chinaDay
  rfl

/-- One audit entry (bot.js `_addAudit` payload): the action tag, operator,
and the aggregate counters used by batch entries. The wall-clock timestamp
is external and not modelled. -/
structure AuditEntry where
  action : String
  operatorId : String
  total : Nat
  successful : Nat
  failed : Nat
deriving DecidableEq, Repr

/-- Method `BotService._addAudit` (bot.js): push the entry, then if the log exceeds
200 entries keep only the last 200 (`slice(-200)`). -/
def addAudit (e : AuditEntry) (log : List AuditEntry) : List AuditEntry :=
  let l := log ++ [e]
  if l.length > 200 then l.drop (l.length - 200) else l

/-- C9: the audit log never exceeds its capacity of 200 after any sequence
of appends from a within-capacity start; an append at or above capacity
drops the oldest entries first (FIFO); and appended entries are never
mutated — the post-append log is always a suffix of the old log with the
new entry at its end. -/
theorem addAudit_bounded_fifo :
    (∀ (es log : List AuditEntry), log.length ≤ 200 →
      (es.foldl (fun l e => addAudit e l) log).length ≤ 200)
  ∧ (∀ (e : AuditEntry) (log : List AuditEntry), 200 ≤ log.length →
      addAudit e log = log.drop (log.length + 1 - 200) ++ [e])
  ∧ (∀ (e : AuditEntry) (log : List AuditEntry),
      List.IsSuffix (addAudit e log) (log ++ [e])) := by
  have hstep : ∀ (e : AuditEntry) (log : List AuditEntry), log.length ≤ 200 →
      (addAudit e log).length ≤ 200 := by
    intro e log h
    unfold addAudit
    by_cases hgt : (log ++ [e]).length > 200
    · rw [if_pos hgt]
      simp [List.length_drop]
      omega
    · rw [if_neg hgt]
      omega
  refine ⟨?_, ?_, ?_⟩
  · intro es
    induction es with
    | nil => intro log h; simpa using h
    | cons e t ih =>
      intro log h
      exact ih (addAudit e log) (hstep e log h)
  · intro e log h
    unfold addAudit
    rw [if_pos (by simp; omega)]
    rw [List.drop_append_of_le_length (by simp)]
    simp
  · intro e log
    unfold addAudit
    by_cases hgt : (log ++ [e]).length > 200
    · rw [if_pos hgt]
      exact List.drop_suffix _ _
    · rw [if_neg hgt]

/-- A sample audit entry for concrete evaluations. -/
def sampleAudit : AuditEntry := ⟨"provision_email", "op", 0, 0, 0⟩

/-- Witness for C9: a single append to the empty log stays within capacity. -/
theorem addAudit_bounded_fifo_witness :
    (([sampleAudit] : List AuditEntry).foldl (fun l e => addAudit e l) []).length ≤ 200 :=
  addAudit_bounded_fifo.1 [sampleAudit] [] (by decide)

/-- A user entry in a batch-provision callback payload (bot.js
`provision_all_email` action value): id, name, optional suggested email. -/
structure BatchUser where
  id : String
  name : String
  email : Option String
deriving DecidableEq, Repr

/-- One per-record result pushed by `_executeBatchEmailProvision`. -/
structure BatchItem where
  name : String
  success : Bool
  email : Option String
  attempts : Option Nat
  error : Option String
deriving DecidableEq, Repr

/-- Method `BotService._executeBatchEmailProvision` (bot.js): sequentially provision
every user (the per-user call to `emailService.provisionEmailWithRetry` is
the oracle `provision`), collecting one result per user — a failure never
aborts the siblings — then append a single aggregate audit entry with the
total, success and failure counts. Returns the results and the new audit
log. -/
def executeBatchEmailProvision (provision : BatchUser → Except String (String × Nat))
    (users : List BatchUser) (operatorId : String) (log : List AuditEntry) :
    List BatchItem × List AuditEntry :=
  let results := users.map (fun u =>
    match provision u with
    | .ok (em, att) => ⟨u.name, true, some em, some att, none⟩
    | .error msg => ⟨u.name, false, none, none, some msg⟩)
  let agg : AuditEntry :=
    ⟨"provision_all_email", operatorId, users.length,
      (results.filter (fun r => r.success)).length,
      (results.filter (fun r => !r.success)).length⟩
  (results, addAudit agg log)

/-- Splitting a list by a predicate preserves its length. -/
theorem length_filter_add_length_filter_not {α : Type} (p : α → Bool) (l : List α) :
    (l.filter p).length + (l.filter (fun x => !(p x))).length = l.length := by
  induction l with
  | nil => rfl
  | cons a t ih =>
    cases h : p a <;> simp [List.filter_cons, h] <;> omega

/-- A concrete 3-user batch for the C2 scenario. -/
def batchUsers3 : List BatchUser :=
  [⟨"1", "A", none⟩, ⟨"2", "B", none⟩, ⟨"3", "C", none⟩]

/-- A provisioning oracle that fails permanently exactly on record 2 ("B"). -/
def provisionFailB : BatchUser → Except String (String × Nat) :=
  fun u => if u.name = "B" then .error "permanent failure" else .ok (u.name ++ EMAIL_DOMAIN, 1)

/-- C2 counterexample: for the 3-record batch where exactly record 2 fails,
the result array has length 3 with 2 successes and 1 failure, but the audit
log grows by exactly **1** (the single aggregate entry) — not by 4 as the
claim states, because the code emits no per-item audit entries. -/
theorem executeBatch_audit_counterexample :
    ((executeBatchEmailProvision provisionFailB batchUsers3 "op" []).1.length = 3)
  ∧ (((executeBatchEmailProvision provisionFailB batchUsers3 "op" []).1.filter
        (fun r => r.success)).length = 2)
  ∧ (((executeBatchEmailProvision provisionFailB batchUsers3 "op" []).1.filter
        (fun r => !r.success)).length = 1)
  ∧ ((executeBatchEmailProvision provisionFailB batchUsers3 "op" []).2.length = 0 + 1)
  ∧ ¬((executeBatchEmailProvision provisionFailB batchUsers3 "op" []).2.length = 0 + 4) := by
  refine ⟨by decide, by decide, by decide, by decide, by decide⟩

/-- C2 (amended): for a batch of `n` records the result array has length
`n`, with `successful + failed = n` (per-item isolation: one record's
permanent failure does not abort the siblings), and — when the log is below
capacity — the audit log grows by exactly **one** entry: the single
aggregate entry appended after all items are processed. In the 3-record
scenario with exactly record 2 failing this gives `successful = 2`,
`failed = 1` and an audit growth of 1 (no per-item entries). -/
theorem executeBatch_amended (provision : BatchUser → Except String (String × Nat))
    (users : List BatchUser) (operatorId : String) (log : List AuditEntry)
    (hcap : log.length < 200) :
    ((executeBatchEmailProvision provision users operatorId log).1.length = users.length)
  ∧ (((executeBatchEmailProvision provision users operatorId log).1.filter
        (fun r => r.success)).length
      + ((executeBatchEmailProvision provision users operatorId log).1.filter
        (fun r => !r.success)).length = users.length)
  ∧ ((executeBatchEmailProvision provision users operatorId log).2
      = log ++ [⟨"provision_all_email", operatorId, users.length,
          ((executeBatchEmailProvision provision users operatorId log).1.filter
            (fun r => r.success)).length,
          ((executeBatchEmailProvision provision users operatorId log).1.filter
            (fun r => !r.success)).length⟩])
  ∧ ((executeBatchEmailProvision provision users operatorId log).2.length
      = log.length + 1) := by
  have hlen : (executeBatchEmailProvision provision users operatorId log).1.length
      = users.length := by
    simp [executeBatchEmailProvision]
  have hsplit := length_filter_add_length_filter_not (fun r : BatchItem => r.success)
    (executeBatchEmailProvision provision users operatorId log).1
  have hadd : ∀ e : AuditEntry, addAudit e log = log ++ [e] := by
    intro e
    unfold addAudit
    rw [if_neg (by simp; omega)]
  refine ⟨hlen, by rw [hsplit, hlen], ?_, ?_⟩
  · simp only [executeBatchEmailProvision]
    rw [hadd]
  · simp only [executeBatchEmailProvision]
    rw [hadd]
    simp

/-- Witness for C2's amended theorem at the concrete failing-record batch. -/
theorem executeBatch_amended_witness :
    (executeBatchEmailProvision provisionFailB batchUsers3 "op" []).1.length
      = batchUsers3.length :=
  (executeBatch_amended provisionFailB batchUsers3 "op" [] (by decide)).1

/-- Substring containment on character lists (JS `String.prototype.includes`):
the needle is a prefix of some suffix of the haystack. -/
def listContainsSub (needle : List Char) : List Char → Bool
  | [] => needle.isEmpty
  | c :: t => needle.isPrefixOf (c :: t) || listContainsSub needle t

/-- Operation `hay.includes(needle)` from matcher.js. -/
def strContainsSub (hay needle : String) : Bool := listContainsSub needle.data hay.data

/-- Operation `hay.startsWith(needle)` from matcher.js. -/
def strStartsWith (hay needle : String) : Bool := needle.data.isPrefixOf hay.data

/-- A Didi regulation rule (matcher.js): id, name, status and scene type.
The source compares `status === '1' || status === 1` and
`String(sceneType) === '3'`; both fields are modelled as their string
renderings. -/
structure DidiRule where
  id : String
  name : String
  status : String
  sceneType : String
deriving DecidableEq, Repr

/-- A rule is active when its status is "1" (「正常」). -/
def isActive (r : DidiRule) : Bool := r.status == "1"

/-- The "北京 + 加班用车 (sceneType 3)" designated default predicate used by
both fallback sites of `matchRule`. -/
def isBeijingOvertime (r : DidiRule) : Bool :=
  strContainsSub r.name "北京" && r.sceneType == "3"

/-- The designated default of `matchRule`: the active 北京 overtime rule if
present, else the first active rule. -/
def defaultRule (active : List DidiRule) : Option DidiRule :=
  match active.find? isBeijingOvertime with
  | some f => some f
  | none => active.head?

/-- The regex `^.+-加班用车$` of matcher.js: the name ends with "-加班用车"
and has at least one character before it. -/
def isStandardOvertimeName (name : String) : Bool :=
  "-加班用车".data.isSuffixOf name.data && name.data.length > "-加班用车".data.length

/-- Expression `overtimeCandidates.sort((a, b) => a.name.length - b.name.length)[0]`:
the first rule of minimal name length (V8's sort is stable). -/
def minByNameLen : List DidiRule → Option DidiRule
  | [] => none
  | r :: rs => some (rs.foldl (fun best x =>
      if x.name.length < best.name.length then x else best) r)

/-- Method `MatcherService.matchRule` (matcher.js): only active rules are
considered (an empty input or no active rules yields null); a missing or
"Unknown" city falls back to the designated default; otherwise the
descending-priority search: name starts with the city and sceneType 3
(standard "-加班用车" name preferred, else shortest name), then contains the
city with sceneType 1, then contains the city in any scene, then the
designated default. -/
def matchRule (cityName : String) (allRules : List DidiRule) : Option DidiRule :=
  if allRules.isEmpty then none
  else
    let activeRules := allRules.filter isActive
    if activeRules.isEmpty then none
    else if cityName = "" ∨ cityName = "Unknown" then defaultRule activeRules
    else
      let normalizedCity := cityName.toLower.trim
      let overtimeCandidates := activeRules.filter (fun r =>
        strStartsWith r.name.toLower normalizedCity && r.sceneType == "3")
      if overtimeCandidates.isEmpty = false then
        match overtimeCandidates.find? (fun r => isStandardOvertimeName r.name) with
        | some s => some s
        | none => minByNameLen overtimeCandidates
      else
        match activeRules.find? (fun r =>
            strContainsSub r.name.toLower normalizedCity && r.sceneType == "1") with
        | some b => some b
        | none =>
          match activeRules.find? (fun r => strContainsSub r.name.toLower normalizedCity) with
          | some a => some a
          | none => defaultRule activeRules

/-- Fact: `minByNameLen` picks one of the list's elements. -/
theorem minByNameLen_mem : ∀ (l : List DidiRule) (r : DidiRule),
    minByNameLen l = some r → r ∈ l := by
  intro l
  cases l with
  | nil => intro r h; cases h
  | cons a t =>
    intro r h
    simp only [minByNameLen, Option.some.injEq] at h
    subst h
    have : ∀ (rs : List DidiRule) (start : DidiRule),
        rs.foldl (fun best x => if x.name.length < best.name.length then x else best) start
          ∈ start :: rs := by
      intro rs
      induction rs with
      | nil => intro start; simp
      | cons x xs ih =>
        intro start
        have hmem := ih (if x.name.length < start.name.length then x else start)
        rcases List.mem_cons.mp hmem with hc | hc
        · rw [List.foldl_cons, hc]
          by_cases hlt : x.name.length < start.name.length
          · simp [hlt]
          · simp [hlt]
        · exact List.mem_cons_of_mem _ (List.mem_cons_of_mem _ hc)
    exact this t a

/-- Anything `defaultRule` returns belongs to the list it was given. -/
theorem defaultRule_mem {active : List DidiRule} {r : DidiRule}
    (h : defaultRule active = some r) : r ∈ active := by
  unfold defaultRule at h
  cases hf : active.find? isBeijingOvertime with
  | some f =>
    rw [hf] at h
    cases h
    exact List.mem_of_find?_eq_some hf
  | none =>
    rw [hf] at h
    exact List.mem_of_mem_head? (Option.mem_def.mpr h)

/-- A non-empty rule list whose only rule is inactive (status "0"). -/
def cInactiveRules : List DidiRule := [⟨"r1", "武汉-加班用车", "0", "3"⟩]

/-- C3 counterexample: with a non-empty rule list containing no active rule,
`matchRule` returns null — contradicting the claim that it falls back to the
default or first active rule whenever the input list is non-empty. -/
theorem matchRule_inactive_counterexample :
    matchRule "武汉" cInactiveRules = none ∧ cInactiveRules ≠ [] := by
  refine ⟨rfl, by decide⟩

/-- C3 (amended): the matcher considers only active rules — anything it
returns is active; when the location label is missing or "Unknown" **and at
least one active rule exists** it returns the designated default rule (the
active 北京 overtime rule) if present, else the first active rule; but when
the filtered set of active rules is empty it returns null even for a
non-empty input list. -/
theorem matchRule_amended (city : String) (rules : List DidiRule) :
    ((rules.filter isActive) = [] → matchRule city rules = none)
  ∧ ((rules.filter isActive) ≠ [] →
      matchRule "" rules = defaultRule (rules.filter isActive)
      ∧ matchRule "Unknown" rules = defaultRule (rules.filter isActive))
  ∧ (∀ r, matchRule city rules = some r → isActive r = true) := by
  refine ⟨?_, ?_, ?_⟩
  · intro hfe
    simp [matchRule, hfe]
  · intro hne
    have hr : rules ≠ [] := fun he => hne (by simp [he])
    have hrE : ¬(rules.isEmpty = true) := by simpa [List.isEmpty_iff] using hr
    have haE : ¬((rules.filter isActive).isEmpty = true) := by
      simpa [List.isEmpty_iff] using hne
    constructor
    · simp only [matchRule]
      rw [if_neg hrE, if_neg haE]
      simp
    · simp only [matchRule]
      rw [if_neg hrE, if_neg haE]
      simp
  · intro r h
    have hact : ∀ {x : DidiRule}, x ∈ rules.filter isActive → isActive x = true :=
      fun hx => (List.mem_filter.mp hx).2
    simp only [matchRule] at h
    by_cases hrE : rules.isEmpty = true
    · rw [if_pos hrE] at h; cases h
    · rw [if_neg hrE] at h
      by_cases haE : (rules.filter isActive).isEmpty = true
      · rw [if_pos haE] at h; cases h
      · rw [if_neg haE] at h
        by_cases hc : city = "" ∨ city = "Unknown"
        · rw [if_pos hc] at h
          exact hact (defaultRule_mem h)
        · rw [if_neg hc] at h
          by_cases hocE : ((rules.filter isActive).filter (fun x =>
              strStartsWith x.name.toLower (city.toLower.trim) && x.sceneType == "3")).isEmpty
              = false
          · rw [if_pos hocE] at h
            cases hf : ((rules.filter isActive).filter (fun x =>
                strStartsWith x.name.toLower (city.toLower.trim) && x.sceneType == "3")).find?
                (fun x => isStandardOvertimeName x.name) with
            | some s =>
              rw [hf] at h
              cases h
              exact hact (List.mem_filter.mp (List.mem_of_find?_eq_some hf)).1
            | none =>
              rw [hf] at h
              exact hact (List.mem_filter.mp (minByNameLen_mem _ _ h)).1
          · rw [if_neg hocE] at h
            cases hf1 : (rules.filter isActive).find? (fun x =>
                strContainsSub x.name.toLower (city.toLower.trim) && x.sceneType == "1") with
            | some b =>
              rw [hf1] at h
              cases h
              exact hact (List.mem_of_find?_eq_some hf1)
            | none =>
              rw [hf1] at h
              cases hf2 : (rules.filter isActive).find? (fun x =>
                  strContainsSub x.name.toLower (city.toLower.trim)) with
              | some a =>
                rw [hf2] at h
                cases h
                exact hact (List.mem_of_find?_eq_some hf2)
              | none =>
                rw [hf2] at h
                exact hact (defaultRule_mem h)

/-- A rule list with a single active 北京 overtime rule. -/
def activeBeijingRules : List DidiRule := [⟨"r2", "北京-加班用车", "1", "3"⟩]

/-- Witness for C3's amended theorem at concrete rule lists. -/
theorem matchRule_amended_witness :
    (matchRule "武汉" cInactiveRules = none)
  ∧ (matchRule "" activeBeijingRules = defaultRule (activeBeijingRules.filter isActive))
  ∧ (isActive ⟨"r2", "北京-加班用车", "1", "3"⟩ = true) :=
  ⟨(matchRule_amended "武汉" cInactiveRules).1 (by decide),
   ((matchRule_amended "" activeBeijingRules).2.1 (by decide)).1,
   (matchRule_amended "" activeBeijingRules).2.2 ⟨"r2", "北京-加班用车", "1", "3"⟩ (by decide)⟩

end OnionEmail
